/-
Verification of the mrfilter driver (src/cmd_to_port/mrfilter.cpp) and the
Adapter::AllowEmpty image adapter (adapter/allow_empty.h, shipped alongside
src/bin/foreach) against their natural-language specification.

The driver's option handling, validation and dispatch logic is embedded
directly from the C++ source.  Components of the repository that are only
declared here (the Filter::* classes, the DFT they perform) are modelled from
the specification; such definitions carry a doc comment starting with
"Modelled from the spec:".
-/
import Mathlib

open scoped BigOperators

/-! ## The AllowEmpty image adapter (adapter/allow_empty.h)

A parent image handle is modelled by its observable state: a validity flag,
its rank, per-axis sizes, a cursor position per axis, and the value at the
cursor.  Every operation of the adapter is embedded as a pure function that
returns its result together with the list of accesses it performed on the
parent, so that "no access to the parent occurs" is a provable statement. -/

structure ImageParent (α : Type) where
  valid : Bool
  ndim : ℕ
  sizes : ℕ → ℤ
  pos : ℕ → ℤ
  val : α

/-- One primitive access to the wrapped parent image. -/
inductive ParentAccess where
  | readIndex (axis : ℕ)
  | readValue
  | writeValue
  | moveIndex (axis : ℕ)
  | setPos (axis : ℕ)
deriving DecidableEq, Repr

/-- Adapter::AllowEmpty: wraps one parent handle and a substitute value. -/
structure AllowEmpty (α : Type) where
  parent : ImageParent α
  value_if_empty : α

/-- The two-argument constructor AllowEmpty (original, value_if_empty). -/
def AllowEmpty.make {α : Type} (original : ImageParent α) (value_if_empty : α) :
    AllowEmpty α :=
  { parent := original, value_if_empty := value_if_empty }

/-- The constructor with the default argument omitted:
value_if_empty defaults to value_type (0.0). -/
def AllowEmpty.makeDefault {α : Type} [Zero α] (original : ImageParent α) :
    AllowEmpty α :=
  AllowEmpty.make original 0

/-- size (axis): the parent size when valid, 0 otherwise. -/
def AllowEmpty.size {α : Type} (A : AllowEmpty α) (axis : ℕ) : ℤ :=
  if A.parent.valid then A.parent.sizes axis else 0

/-- index (axis) read: parent().index (axis) when valid, 0 otherwise. -/
def AllowEmpty.index {α : Type} (A : AllowEmpty α) (axis : ℕ) :
    ℤ × List ParentAccess :=
  if A.parent.valid then (A.parent.pos axis, [ParentAccess.readIndex axis])
  else (0, [])

/-- value () read: parent_.value () when valid, value_if_empty otherwise. -/
def AllowEmpty.value {α : Type} (A : AllowEmpty α) : α × List ParentAccess :=
  if A.parent.valid then (A.parent.val, [ParentAccess.readValue])
  else (A.value_if_empty, [])

/-- set_value: writes through to the parent only when it is valid. -/
def AllowEmpty.set_value {α : Type} (A : AllowEmpty α) (v : α) :
    AllowEmpty α × List ParentAccess :=
  if A.parent.valid then
    ({ A with parent := { A.parent with val := v } }, [ParentAccess.writeValue])
  else (A, [])

/-- move_index: parent().index (axis) += increment, only when valid. -/
def AllowEmpty.move_index {α : Type} (A : AllowEmpty α) (axis : ℕ)
    (increment : ℤ) : AllowEmpty α × List ParentAccess :=
  if A.parent.valid then
    ({ A with parent :=
        { A.parent with
          pos := fun a => if a = axis then A.parent.pos a + increment
                          else A.parent.pos a } },
     [ParentAccess.moveIndex axis])
  else (A, [])

/-- reset (): set_pos (n, 0) for every axis n below ndim, only when valid. -/
def AllowEmpty.reset {α : Type} (A : AllowEmpty α) :
    AllowEmpty α × List ParentAccess :=
  if A.parent.valid then
    ({ A with parent :=
        { A.parent with
          pos := fun a => if a < A.parent.ndim then 0 else A.parent.pos a } },
     (List.range A.parent.ndim).map ParentAccess.setPos)
  else (A, [])

/-! ## The mrfilter driver (src/cmd_to_port/mrfilter.cpp)

Errors thrown by the driver, and the closed filter list it validates the
filter-name argument against. -/

inductive Err where
  | configError (message : String)
deriving DecidableEq, Repr

def filters : List String := ["fft", "gradient", "median", "smooth"]

/-- Outcome of the filter-selection switch in run (). -/
inductive RunOutcome where
  | ranFFT
  | ranGradient
  | ranMedian
  | ranSmooth
  | aborted
deriving DecidableEq, Repr

/-- The switch on filter_index in run (): cases 0..3 select a filter branch,
the default branch asserts false (aborts). -/
def runDispatch : ℕ → RunOutcome
  | 0 => RunOutcome.ranFFT
  | 1 => RunOutcome.ranGradient
  | 2 => RunOutcome.ranMedian
  | 3 => RunOutcome.ranSmooth
  | _ => RunOutcome.aborted

/-! ## The smooth branch of run ()

The branch is embedded as the ordered list of externally visible steps it
performs, paired with the error it throws, if any.  Steps before a throw are
retained; steps after it are not reached. -/

structure SmoothOpts where
  stdev : Option (List ℚ)
  fwhm : Option (List ℚ)
  extent : Option (List ℤ)

inductive SmoothEvent where
  | openInput
  | setStdev (values : List ℚ)
  | setExtent (values : List ℤ)
  | setMessage
  | setStrides
  | createOutput
  | execFilter
deriving DecidableEq, Repr

/-- Whether a driver step reads or writes voxel data (as opposed to header
metadata or filter configuration). -/
def touchesImageData : SmoothEvent → Bool
  | SmoothEvent.createOutput => true
  | SmoothEvent.execFilter => true
  | _ => false

/-- fwhm-to-stdev conversion: stdevs[d] = stdevs[d] / 2.3548. -/
def fwhmToStdev (values : List ℚ) : List ℚ :=
  values.map (fun x => x / 2.3548)

/-- Tail of the smooth branch after the stdev/fwhm handling: extent option,
message, strides, output creation, filter execution. -/
def smoothRunRest (o : SmoothOpts) (ev : List SmoothEvent) :
    List SmoothEvent × Option Err :=
  let ev2 := match o.extent with
    | some l => ev ++ [SmoothEvent.setExtent l]
    | none => ev
  (ev2 ++ [SmoothEvent.setMessage, SmoothEvent.setStrides,
           SmoothEvent.createOutput, SmoothEvent.execFilter], none)

/-- The smooth branch of run () (mrfilter.cpp, case 3): open the input, apply
the stdev option if supplied, then the fwhm option, which throws if stdev was
also supplied and otherwise passes the converted values to set_stdev. -/
def smoothRun (o : SmoothOpts) : List SmoothEvent × Option Err :=
  let ev0 := [SmoothEvent.openInput]
  let ev1 := match o.stdev with
    | some l => ev0 ++ [SmoothEvent.setStdev l]
    | none => ev0
  match o.fwhm with
  | some l =>
      if o.stdev.isSome then
        (ev1, some (Err.configError
          "the stdev and FWHM options are mutually exclusive."))
      else
        smoothRunRest o (ev1 ++ [SmoothEvent.setStdev (fwhmToStdev l)])
  | none => smoothRunRest o ev1

/-! ## The gradient branch of run () -/

/-- Validation applied to a user-supplied stdev list in the gradient branch:
first every element is checked for negativity, then the length must be 1
or 3. -/
def gradientStdevCheck (values : List ℚ) : Option Err :=
  if values.any (fun x => x < 0) then
    some (Err.configError "the Gaussian stdev values cannot be negative")
  else if values.length ≠ 1 ∧ values.length ≠ 3 then
    some (Err.configError
      "unexpected number of elements specified in Gaussian stdev")
  else none

/-- Modelled from the spec: Filter::Gradient::set_stdev (filter/gradient.h is
not under src/) broadcasts a single-element stdev list to all 3 spatial
axes and keeps a 3-element list as is. -/
def gradientBroadcast (values : List ℚ) : List ℚ :=
  if values.length = 1 then List.replicate 3 values.headI else values

/-- The default stdev built when the stdev option is absent:
stdev.resize (ndim, 0.0), then stdev[dim] = voxsize (dim) for dim = 0, 1, 2. -/
def gradientDefaultStdev (ndim : ℕ) (voxsize : ℕ → ℚ) : List ℚ :=
  (((List.replicate ndim (0 : ℚ)).set 0 (voxsize 0)).set 1 (voxsize 1)).set 2
    (voxsize 2)

/-! ## The fft branch of run ()

Images are modelled by their dimensions and a total assignment of values to
coordinate lists.  The branch opens the input with a complex value type,
executes the filter into a complex scratch image, and, when the magnitude
option is given, loops over the scratch image writing the complex modulus of
every voxel into a real-valued output of the same geometry. -/

structure ImageData (α : Type) where
  dims : List ℕ
  val : List ℕ → α

/-- All coordinate lists of an image with the given dimensions, in the order
the LoopInOrder engine visits them (first axis innermost). -/
def allCoords : List ℕ → List (List ℕ)
  | [] => [[]]
  | d :: rest => (allCoords rest).flatMap (fun c => (List.range d).map (fun i => i :: c))

/-- Writing one voxel of an image at a coordinate. -/
def writeVoxel {α : Type} (img : List ℕ → α) (c : List ℕ) (v : α) :
    List ℕ → α :=
  fun i => if i = c then v else img i

/-- The second pass of the magnitude branch: loop over every coordinate of
the complex scratch image, writing output.value () = abs (temp.value ()). -/
noncomputable def magnitudePass (temp : ImageData ℂ) : ImageData ℝ :=
  { dims := temp.dims,
    val := (allCoords temp.dims).foldl
      (fun acc c => writeVoxel acc c (Complex.abs (temp.val c))) (fun _ => 0) }

/-- Opening the input with a complex value type: a real-valued source image
is read through the cast of each voxel into ℂ. -/
def openComplex (u : ImageData ℝ) : ImageData ℂ :=
  { dims := u.dims, val := fun c => ((u.val c : ℝ) : ℂ) }

/-- Output of the fft branch: a complex image, or a real one when the
magnitude option is given. -/
inductive FFTOutput where
  | complexImage (img : ImageData ℂ)
  | realImage (img : ImageData ℝ)

/-- The output selection of the fft branch (mrfilter.cpp, case 0): given the
complex result of the filter execution, either create a complex output image
holding it, or run the magnitude pass into a real output image. -/
noncomputable def fftBranch (magnitude : Bool) (result : ImageData ℂ) : FFTOutput :=
  if magnitude then FFTOutput.realImage (magnitudePass result)
  else FFTOutput.complexImage result

/-! ## The discrete Fourier transform performed by Filter::FFT -/

/-- Modelled from the spec: the complex exponential basis function
exp (2 pi i j / N) used by the DFT (filter/fft.h is not under src/). -/
noncomputable def unitExp (N : ℕ) (j : ℤ) : ℂ :=
  Complex.exp (2 * Real.pi * Complex.I * j / N)

/-- Modelled from the spec: the DFT kernel, with the sign of the exponent
selected by the inverse flag. -/
noncomputable def fourierKernel (inverse : Bool) (N : ℕ) (j : ℤ) : ℂ :=
  if inverse then unitExp N j else unitExp N (-j)

/-- Modelled from the spec: the one-dimensional length-N DFT of a signal,
evaluated at frequency index k; the inverse transform is normalized
by 1 / N so that the round-trip law holds. -/
noncomputable def dft1 (inverse : Bool) (N : ℕ) (g : ℕ → ℂ) (k : ℕ) : ℂ :=
  (∑ n ∈ Finset.range N, g n * fourierKernel inverse N (k * n)) /
    (if inverse then (N : ℂ) else 1)

/-- Modelled from the spec: the DFT applied independently along one axis of a
volume, leaving every other coordinate fixed. -/
noncomputable def dftAlong (inverse : Bool) (dims : List ℕ) (a : ℕ) (v : List ℕ → ℂ) :
    List ℕ → ℂ :=
  fun c => dft1 inverse (dims.getD a 0) (fun n => v (c.set a n)) (c.getD a 0)

/-- Modelled from the spec: Filter::FFT applies the DFT along each axis in
the configured axes set, forward or inverse per the inverse flag. -/
noncomputable def fftApply (inverse : Bool) (axes : List ℕ) (img : ImageData ℂ) :
    ImageData ℂ :=
  { dims := img.dims,
    val := axes.foldl (fun w a => dftAlong inverse img.dims a w) img.val }

/-! ## The filter state across the fft magnitude path -/

inductive DType where
  | cfloat64
  | float32
deriving DecidableEq, Repr

/-- The configuration state of a Filter::FFT object as the driver sees it. -/
structure FFTFilterState where
  datatype : DType
  axes : List ℕ
  inverse : Bool
  centre_zero : Bool
  message : String
deriving DecidableEq, Repr

/-- The filter state at the end of the configuration phase of the fft branch
(construction, set_axes, set_centre_zero, strides, set_message): the
datatype of a filter built over a complex image is complex. -/
def fftConfigure (inverse : Bool) (axesOpt : Option (List ℕ))
    (centre_zero : Bool) (message : String) : FFTFilterState :=
  { datatype := DType.cfloat64,
    axes := axesOpt.getD [0, 1, 2],
    inverse := inverse,
    centre_zero := centre_zero,
    message := message }

/-- Modelled from the spec: the call operator of Filter::FFT (filter/fft.h is
not under src/).  Per the spec, filter state is fixed during execution, so
the operator returns the transformed image together with the unchanged
filter state. -/
noncomputable def fftCallOperator (fs : FFTFilterState) (inp : ImageData ℂ) :
    ImageData ℂ × FFTFilterState :=
  (fftApply fs.inverse fs.axes inp, fs)

/-- The magnitude path of the fft branch, recording the filter state at each
successive driver point: after configuration, after the call operator has
executed into the scratch image, and after the driver assigns
filter.datatype () = Float32 to create the real-valued output. -/
noncomputable def fftMagnitudeTrace (inverse : Bool) (axesOpt : Option (List ℕ))
    (centre_zero : Bool) (message : String) (inp : ImageData ℂ) :
    List FFTFilterState × ImageData ℝ :=
  let s0 := fftConfigure inverse axesOpt centre_zero message
  let p := fftCallOperator s0 inp
  let s2 := { p.2 with datatype := DType.float32 }
  ([s0, p.2, s2], magnitudePass p.1)

/-! ## Claims about the adapter -/

/-- A concrete parent handle that is marked invalid. -/
def invalidParentZ : ImageParent ℤ :=
  { valid := false, ndim := 3, sizes := fun _ => 5, pos := fun _ => 1, val := 7 }

/-- C2: an AllowEmpty adapter over an invalid parent reports size 0 on every
axis, index 0 on every axis, returns the configured default from value (),
and reset, move_index and the value write are silent no-ops that perform no
parent access and leave the adapter unchanged. -/
theorem allowEmpty_invalid_silent {α : Type} (A : AllowEmpty α)
    (h : A.parent.valid = false) :
    (∀ axis, A.size axis = 0) ∧
    (∀ axis, A.index axis = (0, [])) ∧
    A.value = (A.value_if_empty, []) ∧
    A.reset = (A, []) ∧
    (∀ axis increment, A.move_index axis increment = (A, [])) ∧
    (∀ v, A.set_value v = (A, [])) := by
  refine ⟨?_, ?_, ?_, ?_, ?_, ?_⟩ <;>
    simp [AllowEmpty.size, AllowEmpty.index, AllowEmpty.value,
      AllowEmpty.reset, AllowEmpty.move_index, AllowEmpty.set_value, h]

theorem allowEmpty_invalid_silent_witness :
    (AllowEmpty.make invalidParentZ 9).parent.valid = false ∧
    (AllowEmpty.make invalidParentZ 9).size 2 = 0 ∧
    (AllowEmpty.make invalidParentZ 9).value = (9, []) :=
  ⟨rfl, (allowEmpty_invalid_silent (AllowEmpty.make invalidParentZ 9) rfl).1 2,
    (allowEmpty_invalid_silent (AllowEmpty.make invalidParentZ 9) rfl).2.2.1⟩

/-- C10: when the value_if_empty constructor argument is omitted it defaults
to the zero of the value type, so value () on an invalid parent reads 0. -/
theorem allowEmpty_default_value_zero {α : Type} [Zero α]
    (p : ImageParent α) (h : p.valid = false) :
    (AllowEmpty.makeDefault p).value_if_empty = 0 ∧
    ((AllowEmpty.makeDefault p).value).1 = 0 := by
  refine ⟨rfl, ?_⟩
  simp [AllowEmpty.value, AllowEmpty.makeDefault, AllowEmpty.make, h]

theorem allowEmpty_default_value_zero_witness :
    invalidParentZ.valid = false ∧
    ((AllowEmpty.makeDefault invalidParentZ).value).1 = 0 :=
  ⟨rfl, (allowEmpty_default_value_zero invalidParentZ rfl).2⟩

/-! ## Claims about filter selection -/

/-- C8: the filter-selection switch reaches its aborting default branch
exactly for indices outside the validated filter list; for every index into
the closed list of the four filter names the branch is unreachable. -/
theorem runDispatch_default_aborts (n : ℕ) :
    runDispatch n = RunOutcome.aborted ↔ filters.length ≤ n := by
  match n with
  | 0 => simp [runDispatch, filters]
  | 1 => simp [runDispatch, filters]
  | 2 => simp [runDispatch, filters]
  | 3 => simp [runDispatch, filters]
  | k + 4 => simp [runDispatch, filters]

/-! ## Claims about the smooth branch -/

/-- C1: when both the stdev and the fwhm options are supplied, the smooth
branch throws the mutual-exclusivity configuration error, and no step that
touches image data has been performed at that point. -/
theorem smooth_stdev_fwhm_error (o : SmoothOpts)
    (hs : o.stdev.isSome = true) (hf : o.fwhm.isSome = true) :
    (smoothRun o).2 = some (Err.configError
      "the stdev and FWHM options are mutually exclusive.") ∧
    ∀ e ∈ (smoothRun o).1, touchesImageData e = false := by
  obtain ⟨ls, hls⟩ := Option.isSome_iff_exists.mp hs
  obtain ⟨lf, hlf⟩ := Option.isSome_iff_exists.mp hf
  refine ⟨?_, ?_⟩ <;> simp [smoothRun, hls, hlf, touchesImageData]

theorem smooth_stdev_fwhm_error_witness :
    ((SmoothOpts.mk (some [1]) (some [2]) none).stdev.isSome = true) ∧
    ((SmoothOpts.mk (some [1]) (some [2]) none).fwhm.isSome = true) ∧
    (smoothRun (SmoothOpts.mk (some [1]) (some [2]) none)).2 =
      some (Err.configError
        "the stdev and FWHM options are mutually exclusive.") :=
  ⟨rfl, rfl, (smooth_stdev_fwhm_error (SmoothOpts.mk (some [1]) (some [2]) none)
    rfl rfl).1⟩

/-- C7: when the fwhm option is supplied (and stdev is not), the values
passed to set_stdev are exactly the fwhm values divided by 2.3548,
element-wise; no other stdev values reach the filter, and the branch
completes without error. -/
theorem smooth_fwhm_converted (o : SmoothOpts) (l : List ℚ)
    (hs : o.stdev = none) (hf : o.fwhm = some l) :
    SmoothEvent.setStdev (l.map (fun x => x / 2.3548)) ∈ (smoothRun o).1 ∧
    (∀ values, SmoothEvent.setStdev values ∈ (smoothRun o).1 →
      values = l.map (fun x => x / 2.3548)) ∧
    (smoothRun o).2 = none := by
  obtain ⟨st, fw, ex⟩ := o
  simp only at hs hf
  subst hs; subst hf
  cases ex <;>
    simp [smoothRun, smoothRunRest, fwhmToStdev]

theorem smooth_fwhm_converted_witness :
    ((SmoothOpts.mk none (some [2, 3]) none).stdev = none) ∧
    ((SmoothOpts.mk none (some [2, 3]) none).fwhm = some [2, 3]) ∧
    SmoothEvent.setStdev ([2, 3].map (fun x => x / 2.3548)) ∈
      (smoothRun (SmoothOpts.mk none (some [2, 3]) none)).1 :=
  ⟨rfl, rfl, (smooth_fwhm_converted (SmoothOpts.mk none (some [2, 3]) none)
    [2, 3] rfl rfl).1⟩

/-! ## Claims about the gradient branch -/

/-- C5: a user-supplied gradient stdev list is rejected with a configuration
error exactly when it contains a negative value or its length is neither 1
nor 3; all-nonnegative lists of length 1 or 3 are accepted (zero values
included), and a single value is broadcast to the 3 spatial axes. -/
theorem gradient_stdev_validation (values : List ℚ) :
    (gradientStdevCheck values ≠ none ↔
      ((∃ x ∈ values, x < 0) ∨
        (values.length ≠ 1 ∧ values.length ≠ 3))) ∧
    ((∀ x ∈ values, 0 ≤ x) → (values.length = 1 ∨ values.length = 3) →
      gradientStdevCheck values = none) ∧
    (values.length = 1 →
      gradientBroadcast values = List.replicate 3 values.headI) := by
  refine ⟨?_, ?_, ?_⟩
  · unfold gradientStdevCheck
    split_ifs with h1 h2
    · simp only [List.any_eq_true, decide_eq_true_eq] at h1
      simp [h1]
    · simp [h2]
    · simp only [List.any_eq_true, decide_eq_true_eq] at h1
      simp only [not_and_or, not_not] at h2
      refine iff_of_false (by simp) ?_
      rintro (⟨x, hx, hlt⟩ | ⟨hl1, hl3⟩)
      · exact h1 ⟨x, hx, hlt⟩
      · rcases h2 with h | h
        · exact hl1 h
        · exact hl3 h
  · intro hpos hlen
    unfold gradientStdevCheck
    split_ifs with h1 h2
    · simp only [List.any_eq_true, decide_eq_true_eq] at h1
      obtain ⟨x, hx, hlt⟩ := h1
      exact absurd (hpos x hx) (by exact not_le.mpr hlt)
    · rcases hlen with hlen | hlen
      · exact absurd hlen h2.1
      · exact absurd hlen h2.2
    · rfl
  · intro h1
    simp [gradientBroadcast, h1]

theorem gradient_stdev_validation_witness :
    (∀ x ∈ [(0 : ℚ)], 0 ≤ x) ∧
    ([(0 : ℚ)].length = 1 ∨ [(0 : ℚ)].length = 3) ∧
    gradientStdevCheck [0] = none :=
  ⟨by decide, Or.inl rfl,
    (gradient_stdev_validation [0]).2.1 (by decide) (Or.inl rfl)⟩

/-- C6 counterexample: for a rank-4 image whose voxel size is 2 on every
axis, the default stdev built by the gradient branch is 0, not 2, on the
fourth axis, so the claim that stdev[d] equals voxel_size[d] for each
axis d fails. -/
theorem gradient_default_stdev_cex :
    ¬ (∀ d, d < 4 →
      (gradientDefaultStdev 4 (fun _ => 2))[d]? =
        some ((fun _ => (2 : ℚ)) d)) := by
  decide

/-- C6 amended: when the stdev option is absent, the gradient branch builds
a stdev list of length ndim whose entry is the voxel size on each of the
three spatial axes and 0 on every further axis. -/
theorem gradient_default_stdev_amended (ndim : ℕ) (voxsize : ℕ → ℚ)
    (h : 3 ≤ ndim) :
    (gradientDefaultStdev ndim voxsize).length = ndim ∧
    (∀ d, d < 3 →
      (gradientDefaultStdev ndim voxsize)[d]? = some (voxsize d)) ∧
    (∀ d, 3 ≤ d → d < ndim →
      (gradientDefaultStdev ndim voxsize)[d]? = some 0) := by
  unfold gradientDefaultStdev
  refine ⟨by simp, ?_, ?_⟩
  · intro d hd
    have h0 : 0 < ndim := by omega
    have h1 : 1 < ndim := by omega
    have h2 : 2 < ndim := by omega
    interval_cases d
    · rw [List.getElem?_set_ne (by norm_num), List.getElem?_set_ne (by norm_num),
        List.getElem?_set_self (by simpa using h0)]
    · rw [List.getElem?_set_ne (by norm_num),
        List.getElem?_set_self (by simpa using h1)]
    · rw [List.getElem?_set_self (by simpa using h2)]
  · intro d h3 hn
    rw [List.getElem?_set_ne (by omega), List.getElem?_set_ne (by omega),
      List.getElem?_set_ne (by omega), List.getElem?_replicate]
    simp [hn]

theorem gradient_default_stdev_amended_witness :
    3 ≤ 3 ∧ (gradientDefaultStdev 3 (fun d => (d : ℚ) + 1)).length = 3 :=
  ⟨le_refl 3,
    (gradient_default_stdev_amended 3 (fun d => (d : ℚ) + 1) (le_refl 3)).1⟩

/-! ## The output-copy loop of the magnitude pass -/

theorem foldl_write_not_mem {α : Type} (f : List ℕ → α) :
    ∀ (l : List (List ℕ)) (acc : List ℕ → α) (i : List ℕ), i ∉ l →
      (l.foldl (fun a c => writeVoxel a c (f c)) acc) i = acc i := by
  intro l
  induction l with
  | nil => intro acc i _; rfl
  | cons c t ih =>
      intro acc i hi
      have hic : i ≠ c := fun h => hi (by simp [h])
      have hit : i ∉ t := fun h => hi (by simp [h])
      simp only [List.foldl_cons]
      rw [ih _ i hit]
      simp [writeVoxel, hic]

theorem foldl_write_mem {α : Type} (f : List ℕ → α) :
    ∀ (l : List (List ℕ)) (acc : List ℕ → α) (i : List ℕ), i ∈ l →
      (l.foldl (fun a c => writeVoxel a c (f c)) acc) i = f i := by
  intro l
  induction l with
  | nil => intro acc i hi; cases hi
  | cons c t ih =>
      intro acc i hi
      simp only [List.foldl_cons]
      by_cases hit : i ∈ t
      · exact ih _ i hit
      · have hic : i = c := by
          rcases List.mem_cons.mp hi with h | h
          · exact h
          · exact absurd h hit
        rw [foldl_write_not_mem f t _ i hit]
        simp [writeVoxel, hic]

/-! ## Roots of unity and the one-dimensional round trip -/

theorem unitExp_zero (N : ℕ) : unitExp N 0 = 1 := by
  simp [unitExp]

theorem unitExp_add (N : ℕ) (j k : ℤ) :
    unitExp N (j + k) = unitExp N j * unitExp N k := by
  simp only [unitExp, ← Complex.exp_add]
  congr 1
  push_cast
  ring

theorem unitExp_eq_zpow (N : ℕ) (j : ℤ) :
    unitExp N j = Complex.exp (2 * Real.pi * Complex.I / N) ^ j := by
  rw [← Complex.exp_int_mul]
  simp only [unitExp]
  congr 1
  ring

theorem unitExp_sum_orthogonality (N : ℕ) (hN : N ≠ 0) (d : ℤ)
    (hd : ¬ (N : ℤ) ∣ d) :
    ∑ k ∈ Finset.range N, unitExp N ((k : ℤ) * d) = 0 := by
  have hprim := Complex.isPrimitiveRoot_exp N hN
  have hzk : ∀ k : ℕ, unitExp N ((k : ℤ) * d) =
      (Complex.exp (2 * Real.pi * Complex.I / N) ^ d) ^ k := by
    intro k
    rw [unitExp_eq_zpow, mul_comm ((k : ℤ)) d, zpow_mul, zpow_natCast]
  rw [Finset.sum_congr rfl (fun k _ => hzk k)]
  have hz1 : Complex.exp (2 * Real.pi * Complex.I / N) ^ d ≠ 1 := by
    intro h
    exact hd ((hprim.zpow_eq_one_iff_dvd d).mp h)
  have hzN : (Complex.exp (2 * Real.pi * Complex.I / N) ^ d) ^ N = 1 := by
    have hN1 : Complex.exp (2 * Real.pi * Complex.I / N) ^ ((N : ℕ) : ℤ) = 1 := by
      rw [zpow_natCast]
      exact hprim.pow_eq_one
    calc (Complex.exp (2 * Real.pi * Complex.I / N) ^ d) ^ N
        = (Complex.exp (2 * Real.pi * Complex.I / N) ^ d) ^ ((N : ℕ) : ℤ) :=
          (zpow_natCast _ N).symm
      _ = Complex.exp (2 * Real.pi * Complex.I / N) ^ (d * ((N : ℕ) : ℤ)) :=
          (zpow_mul _ d _).symm
      _ = Complex.exp (2 * Real.pi * Complex.I / N) ^ (((N : ℕ) : ℤ) * d) := by
          rw [mul_comm d (((N : ℕ) : ℤ))]
      _ = (Complex.exp (2 * Real.pi * Complex.I / N) ^ ((N : ℕ) : ℤ)) ^ d :=
          zpow_mul _ _ d
      _ = (1 : ℂ) ^ d := by rw [hN1]
      _ = 1 := one_zpow d
  rw [geom_sum_eq hz1 N, hzN]
  simp

theorem unitExp_sum_delta (N m n : ℕ) (hm : m < N) (hn : n < N) :
    ∑ k ∈ Finset.range N, unitExp N ((k : ℤ) * ((m : ℤ) - n)) =
      if n = m then (N : ℂ) else 0 := by
  by_cases h : n = m
  · subst h
    simp [unitExp_zero]
  · rw [if_neg h]
    refine unitExp_sum_orthogonality N (by omega) _ ?_
    intro hdvd
    have habs : ((m : ℤ) - n).natAbs < ((N : ℤ)).natAbs := by omega
    have := Int.eq_zero_of_dvd_of_natAbs_lt_natAbs hdvd habs
    omega

theorem dft1_true_def (N : ℕ) (g : ℕ → ℂ) (k : ℕ) :
    dft1 true N g k = (∑ n ∈ Finset.range N, g n * unitExp N (k * n)) / N := by
  simp [dft1, fourierKernel]

theorem dft1_false_def (N : ℕ) (g : ℕ → ℂ) (k : ℕ) :
    dft1 false N g k = ∑ n ∈ Finset.range N, g n * unitExp N (-(k * n : ℕ)) := by
  simp [dft1, fourierKernel]

theorem dft1_round_trip (N : ℕ) (g : ℕ → ℂ) (m : ℕ) (hm : m < N) :
    dft1 true N (dft1 false N g) m = g m := by
  have hNC : (N : ℂ) ≠ 0 := Nat.cast_ne_zero.mpr (by omega)
  rw [dft1_true_def]
  have h1 : ∀ k : ℕ, dft1 false N g k * unitExp N (m * k) =
      ∑ n ∈ Finset.range N,
        g n * (unitExp N (-(k * n : ℕ)) * unitExp N (m * k)) := by
    intro k
    rw [dft1_false_def, Finset.sum_mul]
    exact Finset.sum_congr rfl (fun n _ => by ring)
  rw [Finset.sum_congr rfl (fun k _ => h1 k), Finset.sum_comm]
  have h2 : ∀ n ∈ Finset.range N,
      (∑ k ∈ Finset.range N,
        g n * (unitExp N (-(k * n : ℕ)) * unitExp N (m * k))) =
      if n = m then g n * N else 0 := by
    intro n hn
    rw [← Finset.mul_sum]
    have hker : ∀ k ∈ Finset.range N,
        unitExp N (-(k * n : ℕ)) * unitExp N (m * k) =
          unitExp N ((k : ℤ) * ((m : ℤ) - n)) := by
      intro k _
      rw [← unitExp_add]
      congr 1
      push_cast
      ring
    rw [Finset.sum_congr rfl hker,
      unitExp_sum_delta N m n hm (Finset.mem_range.mp hn), mul_ite, mul_zero]
  rw [Finset.sum_congr rfl h2,
    Finset.sum_ite_eq' (Finset.range N) m (fun n => g n * N),
    if_pos (Finset.mem_range.mpr hm)]
  exact mul_div_cancel_right₀ (g m) hNC

/-! ## Commutation and round trip of the per-axis transforms -/

theorem set_getD_of_lt {α : Type} (l : List α) (i : ℕ) (d : α)
    (h : i < l.length) : l.set i (l.getD i d) = l := by
  apply List.ext_getElem?
  intro n
  rcases eq_or_ne n i with rfl | hn
  · rw [List.getElem?_set_self h, List.getD_eq_getElem?_getD,
      List.getElem?_eq_getElem h]
    rfl
  · rw [List.getElem?_set_ne (Ne.symm hn)]

theorem double_sum_div_expand (NA NB : ℕ) (dA dB : ℂ) (kerA kerB : ℕ → ℂ)
    (w : ℕ → ℕ → ℂ) :
    (∑ n ∈ Finset.range NA,
        (∑ m ∈ Finset.range NB, w n m * kerB m) / dB * kerA n) / dA =
      (∑ n ∈ Finset.range NA, ∑ m ∈ Finset.range NB,
        w n m * kerB m * kerA n) / (dA * dB) := by
  simp only [div_mul_eq_mul_div]
  rw [← Finset.sum_div, div_div, mul_comm dB dA]
  congr 1
  exact Finset.sum_congr rfl (fun n _ => Finset.sum_mul _ _ _)

theorem dftAlong_comm (dims : List ℕ) (a b : ℕ) (hab : a ≠ b)
    (i1 i2 : Bool) (v : List ℕ → ℂ) :
    dftAlong i1 dims a (dftAlong i2 dims b v) =
      dftAlong i2 dims b (dftAlong i1 dims a v) := by
  funext c
  have hgb : ∀ n : ℕ, (c.set a n).getD b 0 = c.getD b 0 := by
    intro n
    rw [List.getD_eq_getElem?_getD, List.getElem?_set_ne hab,
      ← List.getD_eq_getElem?_getD]
  have hga : ∀ m : ℕ, (c.set b m).getD a 0 = c.getD a 0 := by
    intro m
    rw [List.getD_eq_getElem?_getD, List.getElem?_set_ne (Ne.symm hab),
      ← List.getD_eq_getElem?_getD]
  simp only [dftAlong, dft1, hgb, hga]
  rw [double_sum_div_expand (dims.getD a 0) (dims.getD b 0)
      (if i1 = true then ((dims.getD a 0 : ℕ) : ℂ) else 1)
      (if i2 = true then ((dims.getD b 0 : ℕ) : ℂ) else 1)
      (fun n => fourierKernel i1 (dims.getD a 0) (c.getD a 0 * n))
      (fun m => fourierKernel i2 (dims.getD b 0) (c.getD b 0 * m))
      (fun n m => v ((c.set a n).set b m)),
    double_sum_div_expand (dims.getD b 0) (dims.getD a 0)
      (if i2 = true then ((dims.getD b 0 : ℕ) : ℂ) else 1)
      (if i1 = true then ((dims.getD a 0 : ℕ) : ℂ) else 1)
      (fun m => fourierKernel i2 (dims.getD b 0) (c.getD b 0 * m))
      (fun n => fourierKernel i1 (dims.getD a 0) (c.getD a 0 * n))
      (fun m n => v ((c.set b m).set a n)),
    Finset.sum_comm]
  congr 1
  · refine Finset.sum_congr rfl (fun m _ => Finset.sum_congr rfl (fun n _ => ?_))
    rw [List.set_comm _ _ _ hab]
    ring
  · rw [mul_comm]

theorem dftAlong_round_trip (dims : List ℕ) (a : ℕ) (v : List ℕ → ℂ)
    (c : List ℕ) (ha : a < c.length) (hc : c.getD a 0 < dims.getD a 0) :
    dftAlong true dims a (dftAlong false dims a v) c = v c := by
  have key : ∀ n : ℕ, dftAlong false dims a v (c.set a n) =
      dft1 false (dims.getD a 0) (fun m => v (c.set a m)) n := by
    intro n
    simp only [dftAlong]
    have h2 : (c.set a n).getD a 0 = n := by
      rw [List.getD_eq_getElem?_getD, List.getElem?_set_self ha]
      rfl
    rw [h2]
    congr 1
    funext m
    rw [List.set_set]
  calc dftAlong true dims a (dftAlong false dims a v) c
      = dft1 true (dims.getD a 0)
          (fun n => dft1 false (dims.getD a 0) (fun m => v (c.set a m)) n)
          (c.getD a 0) := by
        simp only [dftAlong]
        congr 1
        funext n
        exact key n
    _ = (fun m => v (c.set a m)) (c.getD a 0) := dft1_round_trip _ _ _ hc
    _ = v c := by
        simp only
        rw [set_getD_of_lt c a 0 ha]

theorem dftAlong_foldl_comm (dims : List ℕ) (i1 i2 : Bool) (a : ℕ) :
    ∀ (t : List ℕ) (v : List ℕ → ℂ), a ∉ t →
      dftAlong i1 dims a (t.foldl (fun w b => dftAlong i2 dims b w) v) =
        t.foldl (fun w b => dftAlong i2 dims b w) (dftAlong i1 dims a v) := by
  intro t
  induction t with
  | nil => intro v _; rfl
  | cons b t2 ih =>
      intro v ha
      simp only [List.foldl_cons]
      rw [ih _ (fun h => ha (List.mem_cons_of_mem _ h))]
      rw [dftAlong_comm dims a b (fun h => ha (by simp [h])) i1 i2 v]

theorem fft_fold_round_trip (dims : List ℕ) :
    ∀ (axes : List ℕ), axes.Nodup →
      ∀ (v : List ℕ → ℂ) (c : List ℕ),
        (∀ a ∈ axes, a < c.length ∧ c.getD a 0 < dims.getD a 0) →
        (axes.foldl (fun w a => dftAlong true dims a w)
          (axes.foldl (fun w a => dftAlong false dims a w) v)) c = v c := by
  intro axes
  induction axes with
  | nil => intro _ v c _; rfl
  | cons a t ih =>
      intro hnd v c hb
      simp only [List.foldl_cons]
      have hat : a ∉ t := (List.nodup_cons.mp hnd).1
      rw [dftAlong_foldl_comm dims true false a t (dftAlong false dims a v) hat]
      rw [ih (List.nodup_cons.mp hnd).2
        (dftAlong true dims a (dftAlong false dims a v)) c
        (fun b hbm => hb b (List.mem_cons_of_mem _ hbm))]
      exact dftAlong_round_trip dims a v c (hb a (List.mem_cons_self a t)).1
        (hb a (List.mem_cons_self a t)).2

/-! ## Claims about the fft branch -/

/-- C4: the fft branch reads the source through a complex value type, so the
transform result is complex-valued with the source geometry; without the
magnitude option the output is the complex result itself, and with it the
second pass writes the complex modulus of every transformed voxel into a
real-valued output image of the same geometry as the complex result. -/
theorem fft_branch_output (u : ImageData ℝ) (inverse : Bool)
    (axes : List ℕ) :
    (fftApply inverse axes (openComplex u)).dims = u.dims ∧
    fftBranch false (fftApply inverse axes (openComplex u)) =
      FFTOutput.complexImage (fftApply inverse axes (openComplex u)) ∧
    fftBranch true (fftApply inverse axes (openComplex u)) =
      FFTOutput.realImage
        (magnitudePass (fftApply inverse axes (openComplex u))) ∧
    (magnitudePass (fftApply inverse axes (openComplex u))).dims = u.dims ∧
    (∀ c ∈ allCoords u.dims,
      (magnitudePass (fftApply inverse axes (openComplex u))).val c =
        Complex.abs ((fftApply inverse axes (openComplex u)).val c)) := by
  refine ⟨rfl, rfl, rfl, rfl, ?_⟩
  intro c hc
  exact foldl_write_mem _ (allCoords u.dims) _ c hc

theorem fft_branch_output_witness :
    ([0] ∈ allCoords (ImageData.mk [2] (fun _ => (1 : ℝ))).dims) ∧
    (magnitudePass (fftApply false []
        (openComplex (ImageData.mk [2] (fun _ => (1 : ℝ)))))).val [0] =
      Complex.abs ((fftApply false []
        (openComplex (ImageData.mk [2] (fun _ => (1 : ℝ))))).val [0]) :=
  ⟨by decide,
    (fft_branch_output (ImageData.mk [2] (fun _ => (1 : ℝ))) false []).2.2.2.2
      [0] (by decide)⟩

/-- C3 counterexample: in the fft magnitude path the driver assigns Float32
to the filter datatype after the call operator has executed, so the filter
state is not fixed once configuration completes: the observed trace contains
a state different from the configured one. -/
theorem fft_state_mutation_cex :
    ¬ (∀ s ∈ (fftMagnitudeTrace false none false "m"
        (ImageData.mk [1] (fun _ => 0))).1,
        s = fftConfigure false none false "m") := by
  intro h
  have hm : ({ fftConfigure false none false "m" with
      datatype := DType.float32 } : FFTFilterState) ∈
      (fftMagnitudeTrace false none false "m"
        (ImageData.mk [1] (fun _ => 0))).1 := by
    simp [fftMagnitudeTrace, fftCallOperator]
  have hdt := congrArg FFTFilterState.datatype (h _ hm)
  simp [fftConfigure] at hdt

/-- C3 amended: the filter state is never mutated between the start and the
end of an execution of the (input, output) call operator — the operator
returns it unchanged — but it is not fixed once configuration completes: in
the magnitude path the driver mutates the filter's output datatype to
Float32 after the complex pass, the observed trace being exactly the
configured state, the same state after execution, and that state with only
the datatype changed. -/
theorem fft_state_fixed_during_call (fs : FFTFilterState)
    (inp : ImageData ℂ) :
    (fftCallOperator fs inp).2 = fs ∧
    (∀ (inverse : Bool) (axesOpt : Option (List ℕ))
        (centre_zero : Bool) (message : String) (inp2 : ImageData ℂ),
      (fftMagnitudeTrace inverse axesOpt centre_zero message inp2).1 =
        [fftConfigure inverse axesOpt centre_zero message,
         fftConfigure inverse axesOpt centre_zero message,
         { fftConfigure inverse axesOpt centre_zero message with
             datatype := DType.float32 }]) :=
  ⟨rfl, fun _ _ _ _ _ => rfl⟩

/-- C9: applying the forward FFT and then the inverse FFT over the same set
of axes (each axis listed once and in range) recovers a real-valued input
volume exactly at every in-bounds coordinate. -/
theorem fft_round_trip (u : ImageData ℝ) (axes : List ℕ)
    (hnd : axes.Nodup) (c : List ℕ)
    (hb : ∀ a ∈ axes, a < c.length ∧ c.getD a 0 < u.dims.getD a 0) :
    (fftApply true axes (fftApply false axes (openComplex u))).val c =
      ((u.val c : ℝ) : ℂ) := by
  have h := fft_fold_round_trip u.dims axes hnd
    (fun c2 => ((u.val c2 : ℝ) : ℂ)) c hb
  simpa [fftApply, openComplex] using h

theorem fft_round_trip_witness :
    ([(0 : ℕ)].Nodup ∧
      (∀ a ∈ [(0 : ℕ)], a < [(0 : ℕ)].length ∧
        [(0 : ℕ)].getD a 0 <
          (ImageData.mk [2] (fun _ => (1 : ℝ))).dims.getD a 0)) ∧
    (fftApply true [0] (fftApply false [0]
        (openComplex (ImageData.mk [2] (fun _ => (1 : ℝ)))))).val [0] =
      (((ImageData.mk [2] (fun _ => (1 : ℝ))).val [0] : ℝ) : ℂ) :=
  ⟨⟨by decide, by decide⟩,
    fft_round_trip (ImageData.mk [2] (fun _ => (1 : ℝ))) [0] (by decide)
      [0] (by decide)⟩
